import Mathlib

/-!
Verification of the molpy molecular-graph library against its specification.

The topology engine (`molpy/group.py`) is not present in the source tree;
only its tests and callers are.  Its data model and operations are therefore
modelled from the specification (each such definition carries a doc comment
starting with `Modelled from the spec:`).  The element registry
(`molpy/element.py`) is present and is embedded directly from the source.
-/

namespace Molpy

/-- Modelled from the spec: an atom (graph node) with a unique identity
(`uuid`), a display name, and an open-ended attribute bag
(missing `molpy/atom.py`). -/
structure Atom where
  uuid : Nat
  name : String
  attrs : List (String × String)
  deriving Repr, DecidableEq

/-- Modelled from the spec: a molecular graph ("Group") with its own identity,
a display name, the list of atoms it owns, and bonds stored as unordered
pairs of atom identities (missing `molpy/group.py`). -/
structure Group where
  uuid : Nat
  name : String
  atoms : List Atom
  bonds : List (Nat × Nat)
  deriving Repr, DecidableEq

/-- Number of atoms in the group. -/
def Group.natoms (G : Group) : Nat := G.atoms.length

/-- Number of bonds in the group. -/
def Group.nbonds (G : Group) : Nat := G.bonds.length

/-- The identities of the atoms of the group, in atom order. -/
def Group.uuids (G : Group) : List Nat := G.atoms.map Atom.uuid

/-- Boolean adjacency: `u` and `v` are joined by a bond (in either stored
orientation). -/
def Group.bondedB (G : Group) (u v : Nat) : Bool :=
  G.bonds.any fun p => (p.1 == u && p.2 == v) || (p.1 == v && p.2 == u)

/-- Propositional adjacency: the unordered pair `{u, v}` is a bond. -/
def Group.bonded (G : Group) (u v : Nat) : Prop :=
  (u, v) ∈ G.bonds ∨ (v, u) ∈ G.bonds

instance (G : Group) (u v : Nat) : Decidable (G.bonded u v) := by
  unfold Group.bonded; infer_instance

/-- Well-formedness invariants of a group, as stated in the spec's data
model: atom identities and names are unique within the graph, every bond's
endpoints are identities of member atoms, no self-loops, and a given
unordered pair appears at most once. -/
def Group.wf (G : Group) : Prop :=
  G.uuids.Nodup ∧ (G.atoms.map Atom.name).Nodup ∧
  (∀ p ∈ G.bonds, p.1 ∈ G.uuids ∧ p.2 ∈ G.uuids ∧ p.1 ≠ p.2) ∧
  G.bonds.Pairwise (fun p q => p ≠ q ∧ p ≠ (q.2, q.1))

instance (G : Group) : Decidable G.wf := by
  unfold Group.wf; infer_instance

/-- Modelled from the spec: the bonded neighbours of the atom with identity
`u`, in atom order (missing `molpy/group.py`, adjacency query). -/
def Group.neighbors (G : Group) (u : Nat) : List Nat :=
  G.uuids.filter fun v => G.bondedB u v

/-- All unordered pairs of elements of a list: each pair of positions
`i < j` contributes the pair `(l[i], l[j])` once. -/
def pairsOf : List Nat → List (Nat × Nat)
  | [] => []
  | x :: xs => (xs.map fun c => (x, c)) ++ pairsOf xs

/-- Modelled from the spec: `searchAngles()` — for every atom `b`, for every
unordered pair of distinct neighbours `{a, c}` of `b`, emit the angle
`(a, b, c)` (missing `molpy/group.py`). -/
def Group.searchAngles (G : Group) : List (Nat × Nat × Nat) :=
  G.atoms.flatMap fun b =>
    (pairsOf (G.neighbors b.uuid)).map fun p => (p.1, b.uuid, p.2)

/-- Modelled from the spec: `searchDihedrals()` — for every bond `(b, c)`
(both traversal directions arise), for every neighbour `a` of `b` with
`a ≠ c`, for every neighbour `d` of `c` with `d ≠ b` and `d ≠ a`, emit
`(a, b, c, d)`, deduplicated by canonicalizing `(a, b, c, d)` against its
reverse `(d, c, b, a)` before emission (the representative with `a < d` is
kept; the two endpoints differ, so exactly one direction survives)
(missing `molpy/group.py`). -/
def Group.searchDihedrals (G : Group) : List (Nat × Nat × Nat × Nat) :=
  G.atoms.flatMap fun b =>
    (G.neighbors b.uuid).flatMap fun c =>
      (G.neighbors b.uuid).flatMap fun a =>
        (G.neighbors c).filterMap fun d =>
          if a ≠ c ∧ d ≠ b.uuid ∧ a < d then some (a, b.uuid, c, d) else none

/-- A group over atoms `0, …, n-1` (identity `i`, name `toString i`, empty
attribute bag) with a supplied bond list, as the networkx-conversion helper
in the tests builds. -/
def mkSimpleGroup (nm : String) (n : Nat) (bs : List (Nat × Nat)) : Group :=
  ⟨0, nm, (List.range n).map fun i => ⟨i, toString i, []⟩, bs⟩

/-- The path graph on 5 atoms (`nx.path_graph 5`). -/
def linear5 : Group := mkSimpleGroup "linear5" 5 [(0,1),(1,2),(2,3),(3,4)]

/-- The complete graph on 5 atoms (`nx.complete_graph 5`). -/
def K5 : Group :=
  mkSimpleGroup "K5" 5
    [(0,1),(0,2),(0,3),(0,4),(1,2),(1,3),(1,4),(2,3),(2,4),(3,4)]

/-- The 3-cycle (`nx.cycle_graph 3`). -/
def ring3 : Group := mkSimpleGroup "ring3" 3 [(0,1),(1,2),(2,0)]

/-- The 4-cycle (`nx.cycle_graph 4`). -/
def ring4 : Group := mkSimpleGroup "ring4" 4 [(0,1),(1,2),(2,3),(3,0)]

/-- Identity of the atom at position `i` of the group's atom ordering. -/
def Group.uuidAt (G : Group) (i : Nat) : Nat := G.uuids.getD i 0

/-- Modelled from the spec: `buildCovalentMap` at radius 1 (the source's
`getCovalentMap`) — a square matrix indexed by the current atom ordering
whose entry `(i, j)` is the bond-graph distance restricted to radius 1:
`1` for directly bonded pairs, `0` on the diagonal, and the sentinel `0`
for pairs beyond the radius (missing `molpy/group.py`). -/
def Group.buildCovalentMap (G : Group) : List (List Nat) :=
  (List.range G.natoms).map fun i =>
    (List.range G.natoms).map fun j =>
      if G.bondedB (G.uuidAt i) (G.uuidAt j) then 1 else 0

/-- Entry `(i, j)` of a covalent map, with default `0` out of range. -/
def entryAt (m : List (List Nat)) (i j : Nat) : Nat := (m.getD i []).getD j 0

/-- Modelled from the spec: `setBondsFromCovalentMap(map)` (the source's
`setTopoByCovalentMap`) — for every pair `(i, j)` with `i < j` where
`map[i][j] == 1`, insert a bond between the corresponding atoms if not
already present (missing `molpy/group.py`). -/
def Group.setBondsFromCovalentMap (G : Group) (m : List (List Nat)) : Group :=
  { G with bonds := G.bonds ++
      (pairsOf (List.range G.natoms)).filterMap fun p =>
        if entryAt m p.1 p.2 = 1 ∧ ¬ G.bondedB (G.uuidAt p.1) (G.uuidAt p.2)
        then some (G.uuidAt p.1, G.uuidAt p.2) else none }

/-- Modelled from the spec: `getSubGroup(name, atomSubset)` — a new graph
containing every atom of `sub` and every existing bond whose both endpoints
are in `sub` (the induced subgraph) (missing `molpy/group.py`). -/
def Group.getSubGroup (G : Group) (nm : String) (sub : List Atom) : Group :=
  { uuid := G.uuid + 1, name := nm, atoms := sub,
    bonds := G.bonds.filter fun p =>
      decide (p.1 ∈ sub.map Atom.uuid ∧ p.2 ∈ sub.map Atom.uuid) }

/-- Copy an atom list, assigning fresh consecutive identities starting at
`k`; names and attribute bags are kept. -/
def copyAtoms : Nat → List Atom → List Atom
  | _, [] => []
  | k, a :: rest => { a with uuid := k } :: copyAtoms (k + 1) rest

/-- Position of the atom with identity `u` in the group's atom ordering. -/
def Group.posOf (G : Group) (u : Nat) : Nat := G.uuids.indexOf u

/-- Modelled from the spec: `copy()` — a new graph whose identity is the
fresh value `next`, with a fresh identity for every atom (consecutive from
`next + 1`, in atom order), identical names and attribute bags, and every
bond carried over to the corresponding copies (missing `molpy/group.py`). -/
def Group.copy (G : Group) (next : Nat) : Group :=
  { uuid := next, name := G.name,
    atoms := copyAtoms (next + 1) G.atoms,
    bonds := G.bonds.map fun p =>
      (next + 1 + G.posOf p.1, next + 1 + G.posOf p.2) }

/-- The error kinds of the spec's error model. -/
inductive MolpyError where
  | duplicateNameError
  | unknownAtomError
  | selfBondError
  | notFoundError
  | shapeMismatchError
  deriving Repr, DecidableEq

/-- Modelled from the spec: insert an atom; fails with `DuplicateNameError`
if the name already exists in the graph (missing `molpy/group.py`). -/
def Group.addAtom (G : Group) (a : Atom) : Except MolpyError Group :=
  if a.name ∈ G.atoms.map Atom.name then .error .duplicateNameError
  else .ok { G with atoms := G.atoms ++ [a] }

/-- Modelled from the spec: insert a bond given two atom references (by
identity); fails with `UnknownAtomError` if either endpoint is absent from
the graph, and with `SelfBondError` if both refer to the same atom
(missing `molpy/group.py`). -/
def Group.addBond (G : Group) (u v : Nat) : Except MolpyError Group :=
  if u ∉ G.uuids ∨ v ∉ G.uuids then .error .unknownAtomError
  else if u = v then .error .selfBondError
  else .ok { G with bonds := G.bonds ++ [(u, v)] }

/-- The methane-like star graph of the tests: a centre atom `C` bonded to
four leaves `H0, …, H3`, pairwise unbonded. -/
def CH4star : Group :=
  ⟨0, "CH4",
   [⟨0, "C", []⟩, ⟨1, "H0", []⟩, ⟨2, "H1", []⟩, ⟨3, "H2", []⟩, ⟨4, "H3", []⟩],
   [(0,1),(0,2),(0,3),(0,4)]⟩

theorem Group.bondedB_iff (G : Group) (u v : Nat) :
    G.bondedB u v = true ↔ G.bonded u v := by
  unfold Group.bondedB Group.bonded
  simp only [List.any_eq_true, Bool.or_eq_true, Bool.and_eq_true, beq_iff_eq]
  constructor
  · rintro ⟨⟨x, y⟩, hmem, ⟨rfl, rfl⟩ | ⟨rfl, rfl⟩⟩
    · exact Or.inl hmem
    · exact Or.inr hmem
  · rintro (h | h)
    · exact ⟨(u, v), h, Or.inl ⟨rfl, rfl⟩⟩
    · exact ⟨(v, u), h, Or.inr ⟨rfl, rfl⟩⟩

theorem Group.bonded_comm (G : Group) (u v : Nat) :
    G.bonded u v ↔ G.bonded v u := Or.comm

theorem Group.bonded_mem_left (G : Group) (hwf : G.wf) {u v : Nat}
    (h : G.bonded u v) : u ∈ G.uuids := by
  rcases h with h | h
  · exact (hwf.2.2.1 _ h).1
  · exact (hwf.2.2.1 _ h).2.1

theorem Group.bonded_ne (G : Group) (hwf : G.wf) {u v : Nat}
    (h : G.bonded u v) : u ≠ v := by
  rcases h with h | h
  · exact (hwf.2.2.1 _ h).2.2
  · exact (hwf.2.2.1 _ h).2.2.symm

theorem Group.not_bonded_self (G : Group) (hwf : G.wf) (u : Nat) :
    ¬ G.bonded u u := fun h => (G.bonded_ne hwf h) rfl

theorem mem_pairsOf {l : List Nat} {p : Nat × Nat} (h : p ∈ pairsOf l) :
    p.1 ∈ l ∧ p.2 ∈ l := by
  induction l with
  | nil => simp [pairsOf] at h
  | cons x xs ih =>
    simp only [pairsOf, List.mem_append, List.mem_map] at h
    rcases h with ⟨c, hc, rfl⟩ | h
    · exact ⟨List.mem_cons_self _ _, List.mem_cons_of_mem _ hc⟩
    · obtain ⟨h1, h2⟩ := ih h
      exact ⟨List.mem_cons_of_mem _ h1, List.mem_cons_of_mem _ h2⟩

theorem length_pairsOf (l : List Nat) :
    (pairsOf l).length = l.length.choose 2 := by
  induction l with
  | nil => rfl
  | cons x xs ih =>
    simp only [pairsOf, List.length_append, List.length_map, ih,
      List.length_cons, Nat.choose_succ_succ, Nat.choose_one_right]

theorem entry_buildCovalentMap (G : Group) {i j : Nat}
    (hi : i < G.natoms) (hj : j < G.natoms) :
    entryAt G.buildCovalentMap i j
      = if G.bondedB (G.uuidAt i) (G.uuidAt j) then 1 else 0 := by
  simp [entryAt, Group.buildCovalentMap, hi, hj]

/-- With the covalent map freshly built at radius 1, materializing bonds
from it inserts nothing new: every entry-1 pair is already bonded. -/
theorem setBonds_roundtrip (G : Group) :
    G.setBondsFromCovalentMap G.buildCovalentMap = G := by
  have hnil : ((pairsOf (List.range G.natoms)).filterMap fun p =>
      if entryAt G.buildCovalentMap p.1 p.2 = 1 ∧
          ¬ G.bondedB (G.uuidAt p.1) (G.uuidAt p.2)
      then some (G.uuidAt p.1, G.uuidAt p.2) else none) = [] := by
    rw [List.filterMap_eq_nil_iff]
    intro p hp
    obtain ⟨h1, h2⟩ := mem_pairsOf hp
    rw [entry_buildCovalentMap G (List.mem_range.mp h1) (List.mem_range.mp h2)]
    by_cases hb : G.bondedB (G.uuidAt p.1) (G.uuidAt p.2) <;> simp [hb]
  unfold Group.setBondsFromCovalentMap
  rw [hnil, List.append_nil]

/-- **C1**: the round trip `setBondsFromCovalentMap ∘ buildCovalentMap` at
radius 1 reproduces exactly the graph's bond set (an unordered pair is
bonded afterwards iff it was bonded before), the built map is square and
symmetric with zero diagonal, and an entry of 1 means directly bonded. -/
theorem C1_covalent_roundtrip (G : Group) (hwf : G.wf) :
    (∀ u v, (G.setBondsFromCovalentMap G.buildCovalentMap).bonded u v
        ↔ G.bonded u v)
    ∧ G.buildCovalentMap.length = G.natoms
    ∧ (∀ row ∈ G.buildCovalentMap, row.length = G.natoms)
    ∧ (∀ i < G.natoms, ∀ j < G.natoms,
        entryAt G.buildCovalentMap i j = entryAt G.buildCovalentMap j i)
    ∧ (∀ i < G.natoms, entryAt G.buildCovalentMap i i = 0)
    ∧ (∀ i < G.natoms, ∀ j < G.natoms,
        (entryAt G.buildCovalentMap i j = 1
          ↔ G.bonded (G.uuidAt i) (G.uuidAt j))) := by
  refine ⟨fun u v => by rw [setBonds_roundtrip], ?_, ?_, ?_, ?_, ?_⟩
  · simp [Group.buildCovalentMap]
  · intro row hrow
    simp only [Group.buildCovalentMap, List.mem_map, List.mem_range] at hrow
    obtain ⟨i, _, rfl⟩ := hrow
    simp
  · intro i hi j hj
    rw [entry_buildCovalentMap G hi hj, entry_buildCovalentMap G hj hi]
    have : G.bondedB (G.uuidAt i) (G.uuidAt j)
        = G.bondedB (G.uuidAt j) (G.uuidAt i) := by
      rw [Bool.eq_iff_iff, G.bondedB_iff, G.bondedB_iff]
      exact G.bonded_comm _ _
    rw [this]
  · intro i hi
    rw [entry_buildCovalentMap G hi hi]
    have : G.bondedB (G.uuidAt i) (G.uuidAt i) = false := by
      rw [Bool.eq_false_iff, Ne, Bool.eq_iff_iff, G.bondedB_iff]
      simp [G.not_bonded_self hwf]
    simp [this]
  · intro i hi j hj
    rw [entry_buildCovalentMap G hi hj, ← G.bondedB_iff]
    by_cases hb : G.bondedB (G.uuidAt i) (G.uuidAt j) <;> simp [hb]

/-- Witness for C1 at the methane-like star graph. -/
theorem C1_covalent_roundtrip_witness :
    entryAt CH4star.buildCovalentMap 0 1 = 1
      ↔ CH4star.bonded (CH4star.uuidAt 0) (CH4star.uuidAt 1) :=
  (C1_covalent_roundtrip CH4star (by decide)).2.2.2.2.2 0 (by decide) 1
    (by decide)

/-- **C6**: the extracted subgroup is the induced subgraph: its atom count
is `|S|`, its bond list is exactly the bonds of `G` with both endpoints in
`S`, and an unordered pair is bonded in it iff it is bonded in `G` and both
endpoints lie in `S`; on the methane-like star graph, the four leaves give
4 atoms and 0 bonds, and centre-plus-leaf gives 2 atoms and 1 bond. -/
theorem C6_subgroup (G : Group) (nm : String) (sub : List Atom)
    (_hsub : ∀ a ∈ sub, a ∈ G.atoms) :
    (G.getSubGroup nm sub).natoms = sub.length
    ∧ (G.getSubGroup nm sub).bonds = G.bonds.filter (fun p =>
        decide (p.1 ∈ sub.map Atom.uuid ∧ p.2 ∈ sub.map Atom.uuid))
    ∧ (∀ u v, (G.getSubGroup nm sub).bonded u v
        ↔ (G.bonded u v ∧ u ∈ sub.map Atom.uuid ∧ v ∈ sub.map Atom.uuid))
    ∧ (CH4star.getSubGroup "H4" (CH4star.atoms.drop 1)).natoms = 4
    ∧ (CH4star.getSubGroup "H4" (CH4star.atoms.drop 1)).nbonds = 0
    ∧ (CH4star.getSubGroup "CH" (CH4star.atoms.take 2)).natoms = 2
    ∧ (CH4star.getSubGroup "CH" (CH4star.atoms.take 2)).nbonds = 1 := by
  refine ⟨rfl, rfl, ?_, by decide, by decide, by decide, by decide⟩
  intro u v
  unfold Group.bonded Group.getSubGroup
  simp only [List.mem_filter, decide_eq_true_eq]
  tauto

/-- Witness for C6 at the methane-like star graph. -/
theorem C6_subgroup_witness :
    (CH4star.getSubGroup "H4" (CH4star.atoms.drop 1)).natoms = 4 :=
  (C6_subgroup CH4star "H4" (CH4star.atoms.drop 1) (by decide)).2.2.2.1

theorem length_copyAtoms (k : Nat) (l : List Atom) :
    (copyAtoms k l).length = l.length := by
  induction l generalizing k with
  | nil => rfl
  | cons a rest ih => simp [copyAtoms, ih]

theorem map_name_copyAtoms (k : Nat) (l : List Atom) :
    (copyAtoms k l).map Atom.name = l.map Atom.name := by
  induction l generalizing k with
  | nil => rfl
  | cons a rest ih => simp [copyAtoms, ih]

theorem map_attrs_copyAtoms (k : Nat) (l : List Atom) :
    (copyAtoms k l).map Atom.attrs = l.map Atom.attrs := by
  induction l generalizing k with
  | nil => rfl
  | cons a rest ih => simp [copyAtoms, ih]

theorem le_of_mem_copyAtoms (k : Nat) (l : List Atom) :
    ∀ u ∈ (copyAtoms k l).map Atom.uuid, k ≤ u := by
  induction l generalizing k with
  | nil => simp [copyAtoms]
  | cons a rest ih =>
    intro u hu
    simp only [copyAtoms, List.map_cons, List.mem_cons] at hu
    rcases hu with rfl | hu
    · exact Nat.le_refl _
    · exact Nat.le_of_succ_le (ih (k + 1) u hu)

/-- **C7**: `copy` preserves atom and bond counts and every atom's name and
attribute bag, while the copy's graph identity and every copied atom's
identity differ from every identity of the source. -/
theorem C7_copy (G : Group) (next : Nat)
    (hfresh : ∀ x ∈ G.uuid :: G.uuids, x < next) :
    (G.copy next).natoms = G.natoms
    ∧ (G.copy next).nbonds = G.nbonds
    ∧ (G.copy next).atoms.map Atom.name = G.atoms.map Atom.name
    ∧ (G.copy next).atoms.map Atom.attrs = G.atoms.map Atom.attrs
    ∧ (G.copy next).uuid ∉ G.uuid :: G.uuids
    ∧ (∀ u ∈ (G.copy next).uuids, u ∉ G.uuid :: G.uuids) := by
  refine ⟨?_, ?_, ?_, ?_, ?_, ?_⟩
  · simp [Group.copy, Group.natoms, length_copyAtoms]
  · simp [Group.copy, Group.nbonds]
  · exact map_name_copyAtoms _ _
  · exact map_attrs_copyAtoms _ _
  · intro hmem
    exact absurd (hfresh _ hmem) (Nat.lt_irrefl _)
  · intro u hu hmem
    have h1 : next + 1 ≤ u :=
      le_of_mem_copyAtoms (next + 1) G.atoms u hu
    have h2 : u < next := hfresh _ hmem
    omega

/-- Witness for C7 at the methane-like star graph with fresh base 100. -/
theorem C7_copy_witness :
    (∀ x ∈ CH4star.uuid :: CH4star.uuids, x < 100)
      ∧ (CH4star.copy 100).natoms = CH4star.natoms :=
  ⟨by decide, (C7_copy CH4star 100 (by decide)).1⟩

/-- **C8**: graph mutations fail exactly on their stated preconditions:
`addAtom` fails with `DuplicateNameError` exactly when the name already
exists, `addBond` fails with `UnknownAtomError` exactly when an endpoint is
absent, with `SelfBondError` exactly when both (present) endpoints are the
same atom, and succeeds otherwise; the failure is the synchronously
returned result. -/
theorem C8_mutation_errors (G : Group) (a : Atom) (u v : Nat) :
    (G.addAtom a = .error .duplicateNameError
      ↔ a.name ∈ G.atoms.map Atom.name)
    ∧ ((∃ G', G.addAtom a = .ok G') ↔ a.name ∉ G.atoms.map Atom.name)
    ∧ (G.addBond u v = .error .unknownAtomError
      ↔ (u ∉ G.uuids ∨ v ∉ G.uuids))
    ∧ (G.addBond u v = .error .selfBondError
      ↔ (u ∈ G.uuids ∧ v ∈ G.uuids ∧ u = v))
    ∧ ((∃ G', G.addBond u v = .ok G')
      ↔ (u ∈ G.uuids ∧ v ∈ G.uuids ∧ u ≠ v)) := by
  unfold Group.addAtom Group.addBond
  by_cases h1 : a.name ∈ G.atoms.map Atom.name <;>
    by_cases h2 : u ∈ G.uuids <;>
    by_cases h3 : v ∈ G.uuids <;>
    by_cases h4 : u = v <;>
    simp [h1, h2, h3, h4]

theorem Group.neighbors_nodup (G : Group) (hwf : G.wf) (u : Nat) :
    (G.neighbors u).Nodup := hwf.1.filter _

theorem Group.mem_neighbors (G : Group) (hwf : G.wf) {u v : Nat} :
    v ∈ G.neighbors u ↔ G.bonded u v := by
  unfold Group.neighbors
  rw [List.mem_filter]
  constructor
  · rintro ⟨-, h⟩; exact (G.bondedB_iff u v).mp h
  · intro h
    refine ⟨?_, (G.bondedB_iff u v).mpr h⟩
    exact G.bonded_mem_left hwf ((G.bonded_comm u v).mp h)

theorem Group.neighbors_eq_nil (G : Group) (hwf : G.wf) {u : Nat}
    (hu : u ∉ G.uuids) : G.neighbors u = [] := by
  unfold Group.neighbors
  rw [List.filter_eq_nil_iff]
  intro v _ hbv
  exact hu (G.bonded_mem_left hwf ((G.bondedB_iff u v).mp hbv))

theorem not_mem_pairsOf_diag {l : List Nat} (hnd : l.Nodup) (a : Nat) :
    (a, a) ∉ pairsOf l := by
  induction l with
  | nil => simp [pairsOf]
  | cons x xs ih =>
    obtain ⟨hx, hnd'⟩ := List.nodup_cons.mp hnd
    intro h
    simp only [pairsOf, List.mem_append, List.mem_map] at h
    rcases h with ⟨c, hc, heq⟩ | h
    · have h1 : x = a := congrArg Prod.fst heq
      have h2 : c = a := congrArg Prod.snd heq
      exact hx (h1 ▸ h2 ▸ hc)
    · exact ih hnd' h

theorem ne_of_mem_pairsOf {l : List Nat} (hnd : l.Nodup) {p : Nat × Nat}
    (hp : p ∈ pairsOf l) : p.1 ≠ p.2 := by
  intro heq
  obtain ⟨p1, p2⟩ := p
  simp only at heq
  subst heq
  exact not_mem_pairsOf_diag hnd p1 hp

/-- Occurrence count of `x` in `l`, as a `countP` over decidable equality. -/
def cnt {α : Type} [DecidableEq α] (x : α) (l : List α) : Nat :=
  l.countP fun y => decide (y = x)

theorem cnt_cons {α : Type} [DecidableEq α] (x a : α) (l : List α) :
    cnt x (a :: l) = cnt x l + if a = x then 1 else 0 := by
  unfold cnt
  rw [List.countP_cons]
  by_cases h : a = x <;> simp [h]

theorem cnt_eq_zero {α : Type} [DecidableEq α] {x : α} {l : List α}
    (h : x ∉ l) : cnt x l = 0 := by
  rw [cnt, List.countP_eq_zero]
  intro a ha
  simp only [decide_eq_true_eq]
  rintro rfl
  exact h ha

theorem cnt_eq_one {α : Type} [DecidableEq α] {l : List α} (hnd : l.Nodup)
    {x : α} (hx : x ∈ l) : cnt x l = 1 := by
  induction l with
  | nil => cases hx
  | cons a xs ih =>
    obtain ⟨ha, hnd'⟩ := List.nodup_cons.mp hnd
    rw [cnt_cons]
    rcases List.mem_cons.mp hx with rfl | hx'
    · rw [cnt_eq_zero ha, if_pos rfl]
    · have hax : a ≠ x := fun h => ha (h ▸ hx')
      rw [ih hnd' hx', if_neg hax]

theorem cnt_append {α : Type} [DecidableEq α] (x : α) (l₁ l₂ : List α) :
    cnt x (l₁ ++ l₂) = cnt x l₁ + cnt x l₂ := by
  unfold cnt
  apply List.countP_append

theorem cnt_map_inj {α β : Type} [DecidableEq α] [DecidableEq β]
    {f : α → β} (hf : Function.Injective f) (x : α) (l : List α) :
    cnt (f x) (l.map f) = cnt x l := by
  induction l with
  | nil => rfl
  | cons a xs ih =>
    rw [List.map_cons, cnt_cons, cnt_cons, ih]
    congr 1
    have : (f a = f x) ↔ (a = x) := hf.eq_iff
    by_cases h : a = x <;> simp [h, this]

theorem cnt_flatMap {α β : Type} [DecidableEq β] (x : β) (l : List α)
    (f : α → List β) :
    cnt x (l.flatMap f) = (l.map fun a => cnt x (f a)).sum := by
  unfold cnt
  rw [List.countP_flatMap]
  rfl

theorem sum_map_eq_of_single {α : Type} {l : List α} {f : α → Nat} {a : α}
    (hnd : l.Nodup) (ha : a ∈ l) (h0 : ∀ b ∈ l, b ≠ a → f b = 0) :
    (l.map f).sum = f a := by
  induction l with
  | nil => cases ha
  | cons x xs ih =>
    obtain ⟨hx, hnd'⟩ := List.nodup_cons.mp hnd
    rw [List.map_cons, List.sum_cons]
    rcases List.mem_cons.mp ha with rfl | ha'
    · have hz : (xs.map f).sum = 0 := by
        apply List.sum_eq_zero
        intro y hy
        obtain ⟨b, hb, rfl⟩ := List.mem_map.mp hy
        exact h0 b (List.mem_cons_of_mem _ hb) (fun h => hx (h ▸ hb))
      rw [hz]
      omega
    · have hxa : x ≠ a := fun h => hx (h ▸ ha')
      rw [h0 x (List.mem_cons_self _ _) hxa,
        ih hnd' ha' (fun b hb hba => h0 b (List.mem_cons_of_mem _ hb) hba)]
      omega

theorem cnt_pairsOf_add {l : List Nat} (hnd : l.Nodup) {a c : Nat}
    (hne : a ≠ c) :
    cnt (a, c) (pairsOf l) + cnt (c, a) (pairsOf l)
      = if a ∈ l ∧ c ∈ l then 1 else 0 := by
  induction l with
  | nil => simp [pairsOf, cnt]
  | cons x xs ih =>
    obtain ⟨hx, hnd'⟩ := List.nodup_cons.mp hnd
    have hmap : ∀ u v : Nat,
        cnt (u, v) (xs.map fun t => (x, t)) = if u = x ∧ v ∈ xs then 1 else 0 := by
      intro u v
      by_cases hu : u = x
      · subst hu
        have hinj : Function.Injective (fun t : Nat => (u, t)) :=
          fun s t h => congrArg Prod.snd h
        rw [show ((u, v) : Nat × Nat) = (fun t => (u, t)) v from rfl,
          cnt_map_inj hinj]
        by_cases hv : v ∈ xs
        · simp [hv, cnt_eq_one hnd' hv]
        · simp [hv, cnt_eq_zero hv]
      · have hnm : (u, v) ∉ xs.map fun t => (x, t) := by
          simp only [List.mem_map]
          rintro ⟨t, ht, heq⟩
          exact hu (congrArg Prod.fst heq).symm
        rw [cnt_eq_zero hnm]
        simp [hu]
    show cnt (a, c) ((xs.map fun t => (x, t)) ++ pairsOf xs)
        + cnt (c, a) ((xs.map fun t => (x, t)) ++ pairsOf xs) = _
    rw [cnt_append, cnt_append, hmap a c, hmap c a]
    have hih := ih hnd'
    by_cases hax : a = x <;> by_cases hcx : c = x <;>
      by_cases haxs : a ∈ xs <;> by_cases hcxs : c ∈ xs <;>
      simp_all [List.mem_cons]

/-- The occurrences of the ordered triple `(a, b, c)` among the emitted
angles are exactly the occurrences of the pair `(a, c)` among the unordered
neighbour pairs of the vertex `b`. -/
theorem cnt_searchAngles (G : Group) (hwf : G.wf) (a b c : Nat) :
    cnt (a, b, c) G.searchAngles = cnt (a, c) (pairsOf (G.neighbors b)) := by
  unfold Group.searchAngles
  rw [cnt_flatMap]
  by_cases hb : b ∈ G.uuids
  · obtain ⟨bt, hbt, rfl⟩ := List.mem_map.mp hb
    rw [sum_map_eq_of_single (List.Nodup.of_map _ hwf.1) hbt ?_]
    · have hinj : Function.Injective
          (fun p : Nat × Nat => (p.1, bt.uuid, p.2)) := by
        rintro ⟨p1, p2⟩ ⟨q1, q2⟩ h
        have h1 := congrArg Prod.fst h
        have h2 := congrArg (fun t : Nat × Nat × Nat => t.2.2) h
        simp only at h1 h2
        simp [h1, h2]
      exact cnt_map_inj hinj (a, c) _
    · intro bt' hbt' hne
      apply cnt_eq_zero
      simp only [List.mem_map]
      rintro ⟨p, hp, heq⟩
      have huu : bt'.uuid = bt.uuid :=
        congrArg (fun t : Nat × Nat × Nat => t.2.1) heq
      exact hne (List.inj_on_of_nodup_map hwf.1 hbt' hbt huu)
  · rw [G.neighbors_eq_nil hwf hb]
    show _ = cnt (a, c) (pairsOf [])
    rw [show (cnt (a, c) (pairsOf []) : Nat) = 0 from rfl]
    apply List.sum_eq_zero
    intro y hy
    obtain ⟨bt, hbt, rfl⟩ := List.mem_map.mp hy
    apply cnt_eq_zero
    simp only [List.mem_map]
    rintro ⟨p, hp, heq⟩
    have huu : bt.uuid = b := congrArg (fun t : Nat × Nat × Nat => t.2.1) heq
    exact hb (huu ▸ List.mem_map.mpr ⟨bt, hbt, rfl⟩)

/-- **C4**: every emitted angle has two distinct end atoms, each bonded to
the vertex; an unordered angle `{(a,b,c), (c,b,a)}` is emitted exactly once
iff it is a genuine angle; the number of emitted angles with vertex `b` is
`C(deg b, 2)`; and the total count is the sum of `C(deg b, 2)` over all
atoms `b`. -/
theorem C4_angles (G : Group) (hwf : G.wf) :
    (∀ t ∈ G.searchAngles,
      t.1 ≠ t.2.2 ∧ G.bonded t.1 t.2.1 ∧ G.bonded t.2.2 t.2.1)
    ∧ (∀ a b c, cnt (a, b, c) G.searchAngles + cnt (c, b, a) G.searchAngles
        = if a ≠ c ∧ G.bonded a b ∧ G.bonded c b then 1 else 0)
    ∧ (∀ b, G.searchAngles.countP (fun t => decide (t.2.1 = b))
        = ((G.neighbors b).length).choose 2)
    ∧ G.searchAngles.length
        = (G.atoms.map fun bt => ((G.neighbors bt.uuid).length).choose 2).sum := by
  refine ⟨?_, ?_, ?_, ?_⟩
  · intro t ht
    unfold Group.searchAngles at ht
    obtain ⟨bt, _, ht⟩ := List.mem_flatMap.mp ht
    obtain ⟨p, hp, rfl⟩ := List.mem_map.mp ht
    obtain ⟨h1, h2⟩ := mem_pairsOf hp
    have hne := ne_of_mem_pairsOf (G.neighbors_nodup hwf bt.uuid) hp
    exact ⟨hne,
      (G.bonded_comm bt.uuid p.1).mp ((G.mem_neighbors hwf).mp h1),
      (G.bonded_comm bt.uuid p.2).mp ((G.mem_neighbors hwf).mp h2)⟩
  · intro a b c
    rw [cnt_searchAngles G hwf a b c, cnt_searchAngles G hwf c b a]
    by_cases hac : a = c
    · subst hac
      rw [cnt_eq_zero (not_mem_pairsOf_diag (G.neighbors_nodup hwf b) a)]
      simp
    · rw [cnt_pairsOf_add (G.neighbors_nodup hwf b) hac]
      have hiff : (a ∈ G.neighbors b ∧ c ∈ G.neighbors b)
          ↔ (a ≠ c ∧ G.bonded a b ∧ G.bonded c b) := by
        rw [G.mem_neighbors hwf, G.mem_neighbors hwf]
        constructor
        · rintro ⟨h1, h2⟩
          exact ⟨hac, (G.bonded_comm b a).mp h1, (G.bonded_comm b c).mp h2⟩
        · rintro ⟨-, h1, h2⟩
          exact ⟨(G.bonded_comm a b).mp h1, (G.bonded_comm c b).mp h2⟩
      rw [if_congr hiff rfl rfl]
  · intro b
    unfold Group.searchAngles
    rw [List.countP_flatMap]
    by_cases hb : b ∈ G.uuids
    · obtain ⟨bt, hbt, rfl⟩ := List.mem_map.mp hb
      have hone : (List.countP (fun t => decide (t.2.1 = bt.uuid)) ∘ fun b' =>
          (pairsOf (G.neighbors b'.uuid)).map fun p => (p.1, b'.uuid, p.2)) bt
            = ((G.neighbors bt.uuid).length).choose 2 := by
        show List.countP _ _ = _
        rw [List.countP_eq_length.mpr, List.length_map, length_pairsOf]
        intro t ht
        obtain ⟨p, hp, rfl⟩ := List.mem_map.mp ht
        simp
      rw [sum_map_eq_of_single (List.Nodup.of_map _ hwf.1) hbt ?_, hone]
      intro bt' hbt' hne
      show List.countP _ _ = 0
      rw [List.countP_eq_zero]
      intro t ht
      obtain ⟨p, hp, rfl⟩ := List.mem_map.mp ht
      simp only [decide_eq_true_eq]
      intro huu
      exact hne (List.inj_on_of_nodup_map hwf.1 hbt' hbt huu)
    · rw [G.neighbors_eq_nil hwf hb]
      rw [show (([] : List Nat).length.choose 2) = 0 from rfl]
      apply List.sum_eq_zero
      intro y hy
      obtain ⟨bt, hbt, rfl⟩ := List.mem_map.mp hy
      show List.countP _ _ = 0
      rw [List.countP_eq_zero]
      intro t ht
      obtain ⟨p, hp, rfl⟩ := List.mem_map.mp ht
      simp only [decide_eq_true_eq]
      intro huu
      exact hb (huu ▸ List.mem_map.mpr ⟨bt, hbt, rfl⟩)
  · unfold Group.searchAngles
    rw [List.length_flatMap]
    congr 1
    apply List.map_congr_left
    intro bt _
    show (_ : List _).length = _
    rw [List.length_map, length_pairsOf]

/-- Witness for C4 at the 4-cycle. -/
theorem C4_angles_witness :
    cnt (1, 0, 3) ring4.searchAngles + cnt (3, 0, 1) ring4.searchAngles
      = if (1 : Nat) ≠ 3 ∧ ring4.bonded 1 0 ∧ ring4.bonded 3 0
        then 1 else 0 :=
  (C4_angles ring4 (by decide)).2.1 1 0 3

theorem cnt_filterMap_ite {β : Type} [DecidableEq β] {l : List Nat}
    (hnd : l.Nodup) (cond : Nat → Prop) [DecidablePred cond]
    (g : Nat → β) (hg : Function.Injective g) (y : Nat) :
    cnt (g y) (l.filterMap fun e => if cond e then some (g e) else none)
      = if y ∈ l ∧ cond y then 1 else 0 := by
  induction l with
  | nil => simp [cnt]
  | cons x xs ih =>
    obtain ⟨hx, hnd'⟩ := List.nodup_cons.mp hnd
    rw [List.filterMap_cons]
    by_cases hcx : cond x
    · rw [if_pos hcx, cnt_cons, ih hnd']
      by_cases hy : y = x
      · subst hy
        simp [hx, hcx]
      · have hgne : g x ≠ g y := fun h => hy (hg h).symm
        simp [hgne, List.mem_cons, hy]
    · rw [if_neg hcx, ih hnd']
      by_cases hy : y = x
      · subst hy
        simp [hx, hcx]
      · simp [List.mem_cons, hy]

/-- The ordered quadruple `(a, b, c, d)` occurs among the emitted dihedrals
exactly once when `a–b`, `b–c`, `c–d` are bonds, `a ≠ c`, `d ≠ b` and
`a < d` (the canonical direction), and never otherwise. -/
theorem cnt_searchDihedrals (G : Group) (hwf : G.wf) (a b c d : Nat) :
    cnt (a, b, c, d) G.searchDihedrals
      = if G.bonded a b ∧ G.bonded b c ∧ G.bonded c d ∧ a ≠ c ∧ d ≠ b ∧ a < d
        then 1 else 0 := by
  have hmemshape : ∀ (bu c' : Nat) (t : Nat × Nat × Nat × Nat),
      t ∈ ((G.neighbors bu).flatMap fun a' =>
        (G.neighbors c').filterMap fun d' =>
          if a' ≠ c' ∧ d' ≠ bu ∧ a' < d'
          then some (a', bu, c', d') else none) →
      t.2.1 = bu ∧ t.2.2.1 = c' := by
    intro bu c' t ht
    obtain ⟨a', _, ht⟩ := List.mem_flatMap.mp ht
    obtain ⟨d', _, heq⟩ := List.mem_filterMap.mp ht
    by_cases hcond : a' ≠ c' ∧ d' ≠ bu ∧ a' < d'
    · rw [if_pos hcond] at heq
      obtain rfl := Option.some.inj heq
      exact ⟨rfl, rfl⟩
    · rw [if_neg hcond] at heq
      cases heq
  unfold Group.searchDihedrals
  rw [cnt_flatMap]
  by_cases hb : b ∈ G.uuids
  · obtain ⟨bt, hbt, rfl⟩ := List.mem_map.mp hb
    rw [sum_map_eq_of_single (List.Nodup.of_map _ hwf.1) hbt ?_]
    · rw [cnt_flatMap]
      by_cases hc : c ∈ G.neighbors bt.uuid
      · rw [sum_map_eq_of_single (G.neighbors_nodup hwf bt.uuid) hc ?_]
        · rw [cnt_flatMap]
          by_cases ha : a ∈ G.neighbors bt.uuid
          · rw [sum_map_eq_of_single (G.neighbors_nodup hwf bt.uuid) ha ?_]
            · have hg : Function.Injective
                  (fun d' : Nat => (a, bt.uuid, c, d')) :=
                fun s t h => congrArg (fun q : Nat × Nat × Nat × Nat => q.2.2.2) h
              rw [cnt_filterMap_ite (G.neighbors_nodup hwf c) _ _ hg d]
              have hiff : (d ∈ G.neighbors c ∧ a ≠ c ∧ d ≠ bt.uuid ∧ a < d)
                  ↔ (G.bonded a bt.uuid ∧ G.bonded bt.uuid c ∧ G.bonded c d
                      ∧ a ≠ c ∧ d ≠ bt.uuid ∧ a < d) := by
                constructor
                · rintro ⟨hd, h1, h2, h3⟩
                  exact ⟨(G.bonded_comm bt.uuid a).mp
                      ((G.mem_neighbors hwf).mp ha),
                    (G.mem_neighbors hwf).mp hc,
                    (G.mem_neighbors hwf).mp hd, h1, h2, h3⟩
                · rintro ⟨-, -, hcd, h1, h2, h3⟩
                  exact ⟨(G.mem_neighbors hwf).mpr hcd, h1, h2, h3⟩
              rw [if_congr hiff rfl rfl]
            · intro a' _ hne
              apply cnt_eq_zero
              intro hmem
              obtain ⟨d', _, heq⟩ := List.mem_filterMap.mp hmem
              by_cases hcond : a' ≠ c ∧ d' ≠ bt.uuid ∧ a' < d'
              · rw [if_pos hcond] at heq
                have h1 : a' = a := congrArg
                  (fun q : Nat × Nat × Nat × Nat => q.1)
                  (Option.some.inj heq)
                exact hne h1
              · rw [if_neg hcond] at heq
                cases heq
          · rw [if_neg ?_]
            · apply List.sum_eq_zero
              intro y hy
              obtain ⟨a', ha', rfl⟩ := List.mem_map.mp hy
              apply cnt_eq_zero
              intro hmem
              obtain ⟨d', _, heq⟩ := List.mem_filterMap.mp hmem
              by_cases hcond : a' ≠ c ∧ d' ≠ bt.uuid ∧ a' < d'
              · rw [if_pos hcond] at heq
                have h1 : a' = a := congrArg
                  (fun q : Nat × Nat × Nat × Nat => q.1)
                  (Option.some.inj heq)
                exact ha (h1 ▸ ha')
              · rw [if_neg hcond] at heq
                cases heq
            · rintro ⟨h1, -⟩
              exact ha ((G.mem_neighbors hwf).mpr
                ((G.bonded_comm a bt.uuid).mp h1))
        · intro c' _ hne
          apply cnt_eq_zero
          intro hmem
          have h2 : c = c' := (hmemshape bt.uuid c' _ hmem).2
          exact hne h2.symm
      · rw [if_neg ?_]
        · apply List.sum_eq_zero
          intro y hy
          obtain ⟨c', hc', rfl⟩ := List.mem_map.mp hy
          apply cnt_eq_zero
          intro hmem
          have h2 : c = c' := (hmemshape bt.uuid c' _ hmem).2
          exact hc (h2.symm ▸ hc')
        · rintro ⟨-, h2, -⟩
          exact hc ((G.mem_neighbors hwf).mpr h2)
    · intro bt' hbt' hne
      apply cnt_eq_zero
      intro hmem
      obtain ⟨c', _, hmem⟩ := List.mem_flatMap.mp hmem
      have h1 : bt.uuid = bt'.uuid := (hmemshape bt'.uuid c' _ hmem).1
      exact hne (List.inj_on_of_nodup_map hwf.1 hbt' hbt h1.symm)
  · rw [if_neg ?_]
    · apply List.sum_eq_zero
      intro y hy
      obtain ⟨bt, hbt, rfl⟩ := List.mem_map.mp hy
      apply cnt_eq_zero
      intro hmem
      obtain ⟨c', _, hmem⟩ := List.mem_flatMap.mp hmem
      have h1 : b = bt.uuid := (hmemshape bt.uuid c' _ hmem).1
      have hmem' : bt.uuid ∈ G.uuids := List.mem_map.mpr ⟨bt, hbt, rfl⟩
      exact hb (h1.symm ▸ hmem')
    · rintro ⟨h1, -⟩
      exact hb (G.bonded_mem_left hwf ((G.bonded_comm a b).mp h1))

/-- **C3**: every emitted dihedral consists of four pairwise-distinct atoms
joined by the bonds `a–b`, `b–c`, `c–d`, and each unordered dihedral
`{(a,b,c,d), (d,c,b,a)}` is emitted exactly once iff it is a genuine
dihedral. -/
theorem C3_dihedrals (G : Group) (hwf : G.wf) :
    (∀ q ∈ G.searchDihedrals,
      (q.1 ≠ q.2.1 ∧ q.1 ≠ q.2.2.1 ∧ q.1 ≠ q.2.2.2 ∧ q.2.1 ≠ q.2.2.1
        ∧ q.2.1 ≠ q.2.2.2 ∧ q.2.2.1 ≠ q.2.2.2)
      ∧ G.bonded q.1 q.2.1 ∧ G.bonded q.2.1 q.2.2.1
      ∧ G.bonded q.2.2.1 q.2.2.2)
    ∧ (∀ a b c d,
        cnt (a, b, c, d) G.searchDihedrals
          + cnt (d, c, b, a) G.searchDihedrals
          = if (a ≠ b ∧ a ≠ c ∧ a ≠ d ∧ b ≠ c ∧ b ≠ d ∧ c ≠ d)
              ∧ G.bonded a b ∧ G.bonded b c ∧ G.bonded c d
            then 1 else 0) := by
  constructor
  · intro q hq
    unfold Group.searchDihedrals at hq
    obtain ⟨bt, _, hq⟩ := List.mem_flatMap.mp hq
    obtain ⟨c', hc', hq⟩ := List.mem_flatMap.mp hq
    obtain ⟨a', ha', hq⟩ := List.mem_flatMap.mp hq
    obtain ⟨d', hd', heq⟩ := List.mem_filterMap.mp hq
    by_cases hcond : a' ≠ c' ∧ d' ≠ bt.uuid ∧ a' < d'
    · rw [if_pos hcond] at heq
      obtain rfl := Option.some.inj heq
      obtain ⟨h1, h2, h3⟩ := hcond
      have hba : G.bonded bt.uuid a' := (G.mem_neighbors hwf).mp ha'
      have hbc : G.bonded bt.uuid c' := (G.mem_neighbors hwf).mp hc'
      have hcd : G.bonded c' d' := (G.mem_neighbors hwf).mp hd'
      refine ⟨⟨(G.bonded_ne hwf hba).symm, h1, Nat.ne_of_lt h3,
        G.bonded_ne hwf hbc, fun h => h2 h.symm, G.bonded_ne hwf hcd⟩,
        (G.bonded_comm bt.uuid a').mp hba, hbc, hcd⟩
    · rw [if_neg hcond] at heq
      cases heq
  · intro a b c d
    rw [cnt_searchDihedrals G hwf a b c d, cnt_searchDihedrals G hwf d c b a]
    by_cases h3 : (a ≠ b ∧ a ≠ c ∧ a ≠ d ∧ b ≠ c ∧ b ≠ d ∧ c ≠ d)
        ∧ G.bonded a b ∧ G.bonded b c ∧ G.bonded c d
    · rw [if_pos h3]
      obtain ⟨⟨hab, hac, had, hbc, hbd, hcd⟩, h1, h2, hcd'⟩ := h3
      by_cases hlt : a < d
      · have hp1 : G.bonded a b ∧ G.bonded b c ∧ G.bonded c d
            ∧ a ≠ c ∧ d ≠ b ∧ a < d :=
          ⟨h1, h2, hcd', hac, fun h => hbd h.symm, hlt⟩
        have hp2 : ¬(G.bonded d c ∧ G.bonded c b ∧ G.bonded b a
            ∧ d ≠ b ∧ a ≠ c ∧ d < a) := by
          rintro ⟨-, -, -, -, -, hda⟩
          omega
        rw [if_pos hp1, if_neg hp2]
      · have hda : d < a := by omega
        have hp1 : ¬(G.bonded a b ∧ G.bonded b c ∧ G.bonded c d
            ∧ a ≠ c ∧ d ≠ b ∧ a < d) := by
          rintro ⟨-, -, -, -, -, h⟩
          omega
        have hp2 : G.bonded d c ∧ G.bonded c b ∧ G.bonded b a
            ∧ d ≠ b ∧ a ≠ c ∧ d < a :=
          ⟨(G.bonded_comm c d).mp hcd', (G.bonded_comm b c).mp h2,
            (G.bonded_comm a b).mp h1, fun h => hbd h.symm, hac, hda⟩
        rw [if_neg hp1, if_pos hp2]
    · rw [if_neg h3]
      have hp1 : ¬(G.bonded a b ∧ G.bonded b c ∧ G.bonded c d
          ∧ a ≠ c ∧ d ≠ b ∧ a < d) := by
        rintro ⟨hab', hbc', hcd', hac', hdb', hlt⟩
        exact h3 ⟨⟨G.bonded_ne hwf hab', hac', Nat.ne_of_lt hlt,
          G.bonded_ne hwf hbc', fun h => hdb' h.symm,
          G.bonded_ne hwf hcd'⟩, hab', hbc', hcd'⟩
      have hp2 : ¬(G.bonded d c ∧ G.bonded c b ∧ G.bonded b a
          ∧ d ≠ b ∧ a ≠ c ∧ d < a) := by
        rintro ⟨hdc, hcb, hba, hdb, hac, hda⟩
        exact h3 ⟨⟨G.bonded_ne hwf ((G.bonded_comm b a).mp hba),
          hac, fun h => (Nat.ne_of_lt hda) h.symm,
          G.bonded_ne hwf ((G.bonded_comm c b).mp hcb),
          fun h => hdb h.symm,
          G.bonded_ne hwf ((G.bonded_comm d c).mp hdc)⟩,
          (G.bonded_comm b a).mp hba, (G.bonded_comm c b).mp hcb,
          (G.bonded_comm d c).mp hdc⟩
      rw [if_neg hp1, if_neg hp2]

/-- Witness for C3 at the 4-cycle. -/
theorem C3_dihedrals_witness :
    cnt (0, 1, 2, 3) ring4.searchDihedrals
      + cnt (3, 2, 1, 0) ring4.searchDihedrals
      = if ((0 : Nat) ≠ 1 ∧ (0 : Nat) ≠ 2 ∧ (0 : Nat) ≠ 3 ∧ (1 : Nat) ≠ 2
            ∧ (1 : Nat) ≠ 3 ∧ (2 : Nat) ≠ 3)
          ∧ ring4.bonded 0 1 ∧ ring4.bonded 1 2 ∧ ring4.bonded 2 3
        then 1 else 0 :=
  (C3_dihedrals ring4 (by decide)).2 0 1 2 3

/-- Neighbour lists induced by a list of tree edges. -/
def treeNbrs (tedges : List (Nat × Nat)) (x : Nat) : List Nat :=
  tedges.filterMap fun p =>
    if p.1 = x then some p.2 else if p.2 = x then some p.1 else none

/-- Depth-first search for a path from `u` to `target` along `nbrs`, with
explicit fuel and a list of already-visited atoms to avoid. -/
def findPath (nbrs : Nat → List Nat) (target : Nat) :
    Nat → Nat → List Nat → Option (List Nat)
  | 0, u, _ => if u = target then some [u] else none
  | fuel + 1, u, avoid =>
    if u = target then some [u]
    else
      (nbrs u).findSome? fun w =>
        if w ∈ avoid then none
        else (findPath nbrs target fuel w (u :: avoid)).map (u :: ·)

/-- Modelled from the spec: the fundamental cycle closed by a non-tree bond
`(u, v)` — the tree path from `u` to `v`, closed by returning to `u` along
the bond (missing `molpy/group.py`). -/
def fundCycle (n : Nat) (tedges : List (Nat × Nat)) (u v : Nat) : List Nat :=
  match findPath (treeNbrs tedges) v n u [] with
  | some p => p ++ [u]
  | none => []

/-- State of the spanning-forest traversal: a component label for every
atom identity, the forest edges collected so far, and the fundamental
cycles found so far. -/
structure BasisState where
  lab : Nat → Nat
  tree : List (Nat × Nat)
  cycles : List (List Nat)

/-- Modelled from the spec: one step of the `getBasisCycles` traversal — a
bond joining two components becomes a spanning-forest edge and merges the
two components; a bond inside one component closes a fundamental cycle
with the tree path between its endpoints (missing `molpy/group.py`). -/
def stepBasis (n : Nat) (st : BasisState) (p : Nat × Nat) : BasisState :=
  if st.lab p.1 = st.lab p.2 then
    { st with cycles := st.cycles ++ [fundCycle n st.tree p.1 p.2] }
  else
    { lab := fun x => if st.lab x = st.lab p.2 then st.lab p.1 else st.lab x,
      tree := st.tree ++ [p],
      cycles := st.cycles }

/-- Modelled from the spec: `getBasisCycles()` — build a spanning forest of
the bond graph by traversal of the bond list; every bond not used by the
forest closes exactly one fundamental cycle with the tree path between its
endpoints, and the list of these cycles is the returned basis
(missing `molpy/group.py`). -/
def Group.getBasisCycles (G : Group) : List (List Nat) :=
  (G.bonds.foldl (stepBasis G.natoms) ⟨id, [], []⟩).cycles

/-- Modelled from the spec: connectivity of the bond graph — the graph is
nonempty and every two atoms are joined by a chain of bonds. -/
def Group.connected (G : Group) : Prop :=
  0 < G.natoms ∧ ∀ u ∈ G.uuids, ∀ v ∈ G.uuids,
    Relation.ReflTransGen G.bonded u v

/-- Number of distinct component labels over the group's atoms. -/
def labelCard (G : Group) (lab : Nat → Nat) : Nat :=
  (G.uuids.toFinset.image lab).card

theorem image_merge_card {s : Finset ℕ} {a b : ℕ} (ha : a ∈ s) (hb : b ∈ s)
    (hab : a ≠ b) :
    (s.image fun t => if t = b then a else t).card = s.card - 1 := by
  have himg : (s.image fun t => if t = b then a else t) = s.erase b := by
    ext t
    simp only [Finset.mem_image, Finset.mem_erase]
    constructor
    · rintro ⟨x, hx, rfl⟩
      by_cases hxb : x = b
      · subst hxb
        rw [if_pos rfl]
        exact ⟨hab, ha⟩
      · rw [if_neg hxb]
        exact ⟨hxb, hx⟩
    · rintro ⟨htb, hts⟩
      exact ⟨t, hts, if_neg htb⟩
  rw [himg, Finset.card_erase_of_mem hb]

theorem stepBasis_label_tree (G : Group) (st : BasisState) (p : Nat × Nat)
    (hp1 : p.1 ∈ G.uuids) (hp2 : p.2 ∈ G.uuids)
    (hinv : st.tree.length + labelCard G st.lab = G.natoms) :
    (stepBasis G.natoms st p).tree.length
      + labelCard G (stepBasis G.natoms st p).lab = G.natoms := by
  unfold stepBasis
  by_cases h : st.lab p.1 = st.lab p.2
  · rw [if_pos h]
    exact hinv
  · rw [if_neg h]
    show (st.tree ++ [p]).length + labelCard G (fun x =>
      if st.lab x = st.lab p.2 then st.lab p.1 else st.lab x) = G.natoms
    have hmem1 : st.lab p.1 ∈ G.uuids.toFinset.image st.lab :=
      Finset.mem_image_of_mem _ (List.mem_toFinset.mpr hp1)
    have hmem2 : st.lab p.2 ∈ G.uuids.toFinset.image st.lab :=
      Finset.mem_image_of_mem _ (List.mem_toFinset.mpr hp2)
    have hcard : labelCard G (fun x =>
        if st.lab x = st.lab p.2 then st.lab p.1 else st.lab x)
        = labelCard G st.lab - 1 := by
      unfold labelCard
      rw [show (fun x => if st.lab x = st.lab p.2 then st.lab p.1 else st.lab x)
          = ((fun t => if t = st.lab p.2 then st.lab p.1 else t) ∘ st.lab)
          from rfl,
        ← Finset.image_image, image_merge_card hmem1 hmem2 h]
    have hpos : 0 < labelCard G st.lab :=
      Finset.card_pos.mpr ⟨st.lab p.1, hmem1⟩
    rw [hcard, List.length_append]
    simp only [List.length_cons, List.length_nil]
    omega

theorem foldl_label_tree (G : Group) (bs : List (Nat × Nat))
    (hbs : ∀ p ∈ bs, p.1 ∈ G.uuids ∧ p.2 ∈ G.uuids) (st : BasisState)
    (hinv : st.tree.length + labelCard G st.lab = G.natoms) :
    (bs.foldl (stepBasis G.natoms) st).tree.length
      + labelCard G (bs.foldl (stepBasis G.natoms) st).lab = G.natoms := by
  induction bs generalizing st with
  | nil => exact hinv
  | cons p rest ih =>
    rw [List.foldl_cons]
    exact ih (fun q hq => hbs q (List.mem_cons_of_mem _ hq)) _
      (stepBasis_label_tree G st p (hbs p (List.mem_cons_self _ _)).1
        (hbs p (List.mem_cons_self _ _)).2 hinv)

theorem foldl_cycles_tree (n : Nat) (bs : List (Nat × Nat))
    (st : BasisState) :
    (bs.foldl (stepBasis n) st).cycles.length
        + (bs.foldl (stepBasis n) st).tree.length
      = st.cycles.length + st.tree.length + bs.length := by
  induction bs generalizing st with
  | nil => simp
  | cons p rest ih =>
    rw [List.foldl_cons, ih]
    unfold stepBasis
    by_cases h : st.lab p.1 = st.lab p.2
    · rw [if_pos h]
      simp only [List.length_append, List.length_cons, List.length_nil]
      omega
    · rw [if_neg h]
      simp only [List.length_append, List.length_cons, List.length_nil]
      omega

theorem stepBasis_lab_eq (n : Nat) (st : BasisState) (p : Nat × Nat)
    {x y : Nat} (h : st.lab x = st.lab y) :
    (stepBasis n st p).lab x = (stepBasis n st p).lab y := by
  unfold stepBasis
  by_cases hc : st.lab p.1 = st.lab p.2
  · rw [if_pos hc]
    exact h
  · rw [if_neg hc]
    show (if st.lab x = st.lab p.2 then st.lab p.1 else st.lab x)
      = (if st.lab y = st.lab p.2 then st.lab p.1 else st.lab y)
    rw [h]

theorem stepBasis_lab_bond (n : Nat) (st : BasisState) (p : Nat × Nat) :
    (stepBasis n st p).lab p.1 = (stepBasis n st p).lab p.2 := by
  unfold stepBasis
  by_cases hc : st.lab p.1 = st.lab p.2
  · rw [if_pos hc]
    exact hc
  · rw [if_neg hc]
    show (if st.lab p.1 = st.lab p.2 then st.lab p.1 else st.lab p.1)
      = (if st.lab p.2 = st.lab p.2 then st.lab p.1 else st.lab p.2)
    rw [if_neg hc, if_pos rfl]

theorem foldl_lab_eq (n : Nat) (bs : List (Nat × Nat)) (st : BasisState)
    {x y : Nat} (h : st.lab x = st.lab y) :
    (bs.foldl (stepBasis n) st).lab x = (bs.foldl (stepBasis n) st).lab y := by
  induction bs generalizing st with
  | nil => exact h
  | cons p rest ih =>
    rw [List.foldl_cons]
    exact ih _ (stepBasis_lab_eq n st p h)

theorem foldl_lab_bond (n : Nat) (bs : List (Nat × Nat)) (st : BasisState)
    {p : Nat × Nat} (hp : p ∈ bs) :
    (bs.foldl (stepBasis n) st).lab p.1
      = (bs.foldl (stepBasis n) st).lab p.2 := by
  induction bs generalizing st with
  | nil => cases hp
  | cons q rest ih =>
    rw [List.foldl_cons]
    rcases List.mem_cons.mp hp with rfl | hp'
    · exact foldl_lab_eq n rest _ (stepBasis_lab_bond n st p)
    · exact ih _ hp'

theorem final_lab_eq_of_reach (G : Group) {u v : Nat}
    (h : Relation.ReflTransGen G.bonded u v) :
    (G.bonds.foldl (stepBasis G.natoms) ⟨id, [], []⟩).lab u
      = (G.bonds.foldl (stepBasis G.natoms) ⟨id, [], []⟩).lab v := by
  induction h with
  | refl => rfl
  | tail hr hb ih =>
    rcases hb with hmem | hmem
    · exact ih.trans (foldl_lab_bond G.natoms G.bonds _ hmem)
    · exact ih.trans (foldl_lab_bond G.natoms G.bonds _ hmem).symm

theorem labelCard_final (G : Group) (hconn : G.connected) :
    labelCard G (G.bonds.foldl (stepBasis G.natoms) ⟨id, [], []⟩).lab = 1 := by
  obtain ⟨hn, hreach⟩ := hconn
  have hlen : G.uuids.length = G.natoms := by
    unfold Group.uuids Group.natoms
    exact List.length_map _ _
  have hne : G.uuids ≠ [] := by
    intro h
    rw [h] at hlen
    simp at hlen
    omega
  obtain ⟨u0, hu0⟩ := List.exists_mem_of_ne_nil _ hne
  unfold labelCard
  rw [Finset.card_eq_one]
  refine ⟨(G.bonds.foldl (stepBasis G.natoms) ⟨id, [], []⟩).lab u0, ?_⟩
  ext t
  simp only [Finset.mem_image, Finset.mem_singleton, List.mem_toFinset]
  constructor
  · rintro ⟨x, hx, rfl⟩
    exact final_lab_eq_of_reach G (hreach x hx u0 hu0)
  · rintro rfl
    exact ⟨u0, hu0, rfl⟩

/-- For a connected well-formed graph, the number of basis cycles equals
`bonds − atoms + 1` (as integers). -/
theorem basis_size (G : Group) (hwf : G.wf) (hconn : G.connected) :
    (G.getBasisCycles.length : ℤ) = (G.nbonds : ℤ) - (G.natoms : ℤ) + 1 := by
  have h1 := foldl_cycles_tree G.natoms G.bonds ⟨id, [], []⟩
  have hinit : (([] : List (Nat × Nat)).length)
      + labelCard G id = G.natoms := by
    unfold labelCard
    rw [Finset.image_id]
    rw [List.toFinset_card_of_nodup hwf.1]
    unfold Group.uuids Group.natoms
    simp
  have h2 := foldl_label_tree G G.bonds
    (fun p hp => ⟨(hwf.2.2.1 p hp).1, (hwf.2.2.1 p hp).2.1⟩) ⟨id, [], []⟩ hinit
  have h3 := labelCard_final G hconn
  unfold Group.getBasisCycles Group.nbonds
  simp only [List.length_nil, Nat.zero_add] at h1 h2
  omega

/-- The path edges `(0,1), (1,2), …, (m-1,m)`. -/
def pathEdges (m : Nat) : List (Nat × Nat) :=
  (List.range m).map fun i => (i, i + 1)

/-- The simple cycle on `n` atoms, with bonds listed around the ring (the
networkx `cycle_graph` conversion of the tests). -/
def cycleGroup (n : Nat) : Group :=
  mkSimpleGroup "ring" n (pathEdges (n - 1) ++ [(n - 1, 0)])

/-- The list `[k, k-1, …, 1, 0]`. -/
def descList : Nat → List Nat
  | 0 => [0]
  | k + 1 => (k + 1) :: descList k

theorem pathEdges_succ (m : Nat) :
    pathEdges (m + 1) = pathEdges m ++ [(m, m + 1)] := by
  unfold pathEdges
  rw [List.range_succ, List.map_append]
  rfl

theorem treeNbrs_append (t₁ t₂ : List (Nat × Nat)) (x : Nat) :
    treeNbrs (t₁ ++ t₂) x = treeNbrs t₁ x ++ treeNbrs t₂ x := by
  unfold treeNbrs
  rw [List.filterMap_append]

theorem treeNbrs_pathEdges (m x : Nat) :
    treeNbrs (pathEdges m) x
      = if x = 0 then (if m = 0 then [] else [1])
        else if x < m then [x - 1, x + 1]
        else if x = m then [x - 1]
        else [] := by
  induction m with
  | zero =>
    show ([] : List Nat) = _
    by_cases hx : x = 0 <;> simp [hx]
  | succ m ih =>
    rw [pathEdges_succ, treeNbrs_append, ih]
    have htail : treeNbrs [(m, m + 1)] x
        = if m = x then [m + 1] else if m + 1 = x then [m] else [] := by
      unfold treeNbrs
      rw [List.filterMap_cons]
      by_cases h1 : m = x
      · rw [if_pos h1]
        simp [h1]
      · rw [if_neg h1]
        by_cases h2 : m + 1 = x
        · simp [h1, h2]
        · simp [h1, h2]
    rw [htail]
    by_cases hx0 : x = 0
    · subst hx0
      have hm1 : m + 1 ≠ 0 := Nat.succ_ne_zero m
      by_cases hm : m = 0 <;> simp [hm]
    · by_cases hxm : x < m
      · have h1 : m ≠ x := by omega
        have h2 : m + 1 ≠ x := by omega
        have h3 : x < m + 1 := by omega
        simp [hx0, hxm, h1, h2, h3]
      · by_cases hxem : x = m
        · subst hxem
          have h3 : x < x + 1 := Nat.lt_succ_self x
          have h2 : x + 1 ≠ x := by omega
          simp [hx0, hxm, h2, h3]
        · by_cases hxm1 : x = m + 1
          · subst hxm1
            have h1 : ¬ (m + 1 < m) := by omega
            have h2 : m + 1 ≠ m := by omega
            simp [hx0, h1, h2, Nat.add_sub_cancel]
          · have h1 : m ≠ x := by omega
            have h2 : m + 1 ≠ x := by omega
            have h3 : ¬ (x < m) := hxm
            have h4 : ¬ (x < m + 1) := by omega
            have h5 : x ≠ m := fun h => hxem h
            simp [hx0, h1, h2, h3, h4, h5, hxm1]

theorem mem_descList {k x : Nat} : x ∈ descList k ↔ x ≤ k := by
  induction k with
  | zero => simp [descList, Nat.le_zero]
  | succ k ih =>
    rw [descList]
    simp only [List.mem_cons, ih]
    omega

theorem descList_nodup (k : Nat) : (descList k).Nodup := by
  induction k with
  | zero => simp [descList]
  | succ k ih =>
    rw [descList]
    refine List.nodup_cons.mpr ⟨fun h => ?_, ih⟩
    have := mem_descList.mp h
    omega

theorem descList_length (k : Nat) : (descList k).length = k + 1 := by
  induction k with
  | zero => rfl
  | succ k ih => simp [descList, ih]

theorem findPath_desc (m : Nat) :
    ∀ k fuel avoid, k ≤ m → k ≤ fuel → (∀ w ∈ avoid, k < w) →
      findPath (treeNbrs (pathEdges m)) 0 fuel k avoid
        = some (descList k) := by
  intro k
  induction k with
  | zero =>
    intro fuel avoid _ _ _
    cases fuel with
    | zero => rfl
    | succ f => rfl
  | succ k ih =>
    intro fuel avoid hkm hkf hav
    obtain ⟨f, rfl⟩ : ∃ f, fuel = f + 1 :=
      ⟨fuel - 1, by omega⟩
    show findPath (treeNbrs (pathEdges m)) 0 (f + 1) (k + 1) avoid = _
    unfold findPath
    rw [if_neg (Nat.succ_ne_zero k)]
    have hnbrs : treeNbrs (pathEdges m) (k + 1)
        = if k + 1 < m then [k, k + 2] else [k] := by
      rw [treeNbrs_pathEdges]
      have h0 : k + 1 ≠ 0 := Nat.succ_ne_zero k
      by_cases hlt : k + 1 < m
      · simp [h0, hlt]
      · have heq : m = k + 1 := by omega
        subst heq
        have h1 : ¬ (k + 1 < k + 1) := by omega
        simp [h0, h1]
    have hrec : findPath (treeNbrs (pathEdges m)) 0 f k ((k + 1) :: avoid)
        = some (descList k) := by
      apply ih f ((k + 1) :: avoid) (by omega) (by omega)
      intro w hw
      rcases List.mem_cons.mp hw with rfl | hw'
      · omega
      · have := hav w hw'
        omega
    have hknot : k ∉ avoid := fun h => by
      have := hav k h
      omega
    rw [hnbrs]
    by_cases hlt : k + 1 < m
    · rw [if_pos hlt, List.findSome?_cons]
      rw [if_neg hknot, hrec]
      rfl
    · rw [if_neg hlt, List.findSome?_cons]
      rw [if_neg hknot, hrec]
      rfl

/-- The component labelling after processing the path edges `0–1, …,
`(k-1)–k`: atoms up to `k` are merged into component `0`, the rest keep
their own label. -/
def labAfter (k : Nat) : Nat → Nat := fun x => if x ≤ k then 0 else x

theorem foldl_pathEdges (n k : Nat) :
    (pathEdges k).foldl (stepBasis n) ⟨id, [], []⟩
      = ⟨labAfter k, pathEdges k, []⟩ := by
  induction k with
  | zero =>
    show (⟨id, [], []⟩ : BasisState) = _
    have hlab : (id : Nat → Nat) = labAfter 0 := by
      funext x
      simp only [labAfter, id]
      by_cases h : x ≤ 0
      · have : x = 0 := by omega
        simp [h, this]
      · simp [h]
    rw [hlab]
    rfl
  | succ k ih =>
    rw [pathEdges_succ, List.foldl_append, ih, List.foldl_cons,
      List.foldl_nil]
    unfold stepBasis
    rw [if_neg ?_]
    · show BasisState.mk _ _ _ = _
      have hlab : (fun x => if labAfter k x = labAfter k (k, k + 1).2
            then labAfter k (k, k + 1).1 else labAfter k x)
          = labAfter (k + 1) := by
        funext x
        simp only [labAfter]
        by_cases h1 : x ≤ k <;> by_cases h2 : x ≤ k + 1 <;>
          by_cases h3 : k ≤ k <;> by_cases h4 : k + 1 ≤ k <;>
          simp [h1, h2, h3, h4] <;> omega
      rw [hlab]
    · show ¬ (labAfter k (k, k + 1).1 = labAfter k (k, k + 1).2)
      simp only [labAfter]
      have h3 : k ≤ k := Nat.le_refl k
      have h4 : ¬ (k + 1 ≤ k) := by omega
      simp [h3, h4]

theorem cycleGroup_natoms (n : Nat) : (cycleGroup n).natoms = n := by
  unfold cycleGroup mkSimpleGroup Group.natoms
  simp

theorem getBasisCycles_cycleGroup (n : Nat) (hn : 3 ≤ n) :
    (cycleGroup n).getBasisCycles = [descList (n - 1) ++ [n - 1]] := by
  unfold Group.getBasisCycles
  rw [cycleGroup_natoms]
  have hbonds : (cycleGroup n).bonds = pathEdges (n - 1) ++ [(n - 1, 0)] := rfl
  rw [hbonds, List.foldl_append, foldl_pathEdges n (n - 1), List.foldl_cons,
    List.foldl_nil]
  unfold stepBasis
  rw [if_pos ?_]
  · show [] ++ [fundCycle n (pathEdges (n - 1)) (n - 1, 0).1 (n - 1, 0).2] = _
    rw [List.nil_append]
    have hfc : fundCycle n (pathEdges (n - 1)) (n - 1) 0
        = descList (n - 1) ++ [n - 1] := by
      unfold fundCycle
      rw [findPath_desc (n - 1) (n - 1) n [] (Nat.le_refl _) (by omega)
        (by simp)]
    rw [show ((n - 1, 0) : Nat × Nat).1 = n - 1 from rfl,
      show ((n - 1, 0) : Nat × Nat).2 = 0 from rfl, hfc]
  · show labAfter (n - 1) (n - 1, 0).1 = labAfter (n - 1) (n - 1, 0).2
    simp only [labAfter]
    have h1 : n - 1 ≤ n - 1 := Nat.le_refl _
    have h2 : 0 ≤ n - 1 := Nat.zero_le _
    simp [h1, h2]

theorem chain_descList_cycle (n : Nat) :
    List.Chain' (cycleGroup n).bonded (descList (n - 1) ++ [n - 1]) := by
  have hbond1 : ∀ j, j < n - 1 → (cycleGroup n).bonded (j + 1) j := by
    intro j hj
    refine Or.inr ?_
    show (j, j + 1) ∈ pathEdges (n - 1) ++ [(n - 1, 0)]
    apply List.mem_append_left
    exact List.mem_map.mpr ⟨j, List.mem_range.mpr hj, rfl⟩
  have hbond0 : (cycleGroup n).bonded 0 (n - 1) := by
    refine Or.inr ?_
    show (n - 1, 0) ∈ pathEdges (n - 1) ++ [(n - 1, 0)]
    apply List.mem_append_right
    exact List.mem_singleton.mpr rfl
  have main : ∀ k, k ≤ n - 1 →
      List.Chain' (cycleGroup n).bonded (descList k ++ [n - 1]) := by
    intro k
    induction k with
    | zero =>
      intro _
      exact List.chain'_cons.mpr ⟨hbond0, List.chain'_singleton _⟩
    | succ k ih =>
      intro hk
      have hstep : (cycleGroup n).bonded (k + 1) k := hbond1 k (by omega)
      cases k with
      | zero =>
        exact List.chain'_cons.mpr ⟨hstep, ih (by omega)⟩
      | succ j =>
        exact List.chain'_cons.mpr ⟨hstep, ih (by omega)⟩
  exact main (n - 1) (Nat.le_refl _)

/-- **C5**: for a connected well-formed graph the ring basis found by
`getBasisCycles` has exactly `bonds − atoms + 1` members; for the simple
`n`-cycle (`n ≥ 3`) it has exactly one member, a closed walk over existing
bonds visiting exactly `n` distinct atoms. -/
theorem C5_basis_cycles (G : Group) (hwf : G.wf) (hconn : G.connected) :
    ((G.getBasisCycles.length : ℤ) = (G.nbonds : ℤ) - (G.natoms : ℤ) + 1)
    ∧ (∀ n, 3 ≤ n → ∃ cyc,
        (cycleGroup n).getBasisCycles = [cyc]
        ∧ cyc ≠ []
        ∧ cyc.head? = cyc.getLast?
        ∧ List.Chain' (cycleGroup n).bonded cyc
        ∧ cyc.dropLast.Nodup
        ∧ cyc.dropLast.length = n) := by
  refine ⟨basis_size G hwf hconn, ?_⟩
  intro n hn
  refine ⟨descList (n - 1) ++ [n - 1], getBasisCycles_cycleGroup n hn,
    ?_, ?_, chain_descList_cycle n, ?_, ?_⟩
  · intro h
    have := congrArg List.length h
    rw [List.length_append, descList_length] at this
    simp at this
  · have hhead : (descList (n - 1) ++ [n - 1]).head? = some (n - 1) := by
      cases hh : n - 1 with
      | zero => rfl
      | succ j => rw [descList]; rfl
    have hlast : (descList (n - 1) ++ [n - 1]).getLast? = some (n - 1) := by
      rw [List.getLast?_concat]
    rw [hhead, hlast]
  · rw [List.dropLast_concat]
    exact descList_nodup (n - 1)
  · rw [List.dropLast_concat, descList_length]
    omega

/-- A two-atom graph joined by one bond. -/
def bondPair : Group := mkSimpleGroup "pair" 2 [(0, 1)]

/-- Witness for C5 at the two-atom one-bond graph (ring basis empty,
`1 − 2 + 1 = 0`). -/
theorem C5_basis_cycles_witness :
    (bondPair.getBasisCycles.length : ℤ)
      = (bondPair.nbonds : ℤ) - (bondPair.natoms : ℤ) + 1 := by
  have hwf : bondPair.wf := by decide
  have hconn : bondPair.connected := by
    constructor
    · decide
    · intro u hu v hv
      have he : bondPair.uuids = [0, 1] := rfl
      rw [he] at hu hv
      have h01 : bondPair.bonded 0 1 := Or.inl (by decide)
      have h10 : bondPair.bonded 1 0 := Or.inr (by decide)
      have hu2 : u = 0 ∨ u = 1 := by simpa using hu
      have hv2 : v = 0 ∨ v = 1 := by simpa using hv
      rcases hu2 with rfl | rfl <;> rcases hv2 with rfl | rfl
      · exact Relation.ReflTransGen.refl
      · exact Relation.ReflTransGen.single h01
      · exact Relation.ReflTransGen.single h10
      · exact Relation.ReflTransGen.refl
  exact (C5_basis_cycles bondPair hwf hconn).1

/-- **C2**: the concrete angle and dihedral counts of the test topologies:
the 5-path has 3 angles and 2 dihedrals, the complete graph K5 has 30
angles and 60 dihedrals, the 3-cycle has 3 angles and 0 dihedrals, and the
4-cycle has 4 angles and 4 dihedrals. -/
theorem C2_concrete_counts :
    linear5.searchAngles.length = 3 ∧ linear5.searchDihedrals.length = 2
    ∧ K5.searchAngles.length = 30 ∧ K5.searchDihedrals.length = 60
    ∧ ring3.searchAngles.length = 3 ∧ ring3.searchDihedrals.length = 0
    ∧ ring4.searchAngles.length = 4 ∧ ring4.searchDihedrals.length = 4 := by
  refine ⟨?_, ?_, ?_, ?_, ?_, ?_, ?_, ?_⟩ <;> decide

/-- A chemical element as constructed in `molpy/element.py`: atomic
number, name, chemical symbol, and atomic mass (in daltons, as a
rational). -/
structure Element where
  atomic_number : Nat
  name : String
  symbol : String
  mass : ℚ
  deriving Repr, DecidableEq

/-- Python `str.strip()`: remove leading and trailing whitespace. -/
def pyStrip (s : String) : String :=
  String.mk
    (((s.toList.dropWhile Char.isWhitespace).reverse.dropWhile
      Char.isWhitespace).reverse)

/-- Python `str.upper()` on ASCII strings: upper-case every character. -/
def pyUpper (s : String) : String :=
  String.mk (s.toList.map Char.toUpper)

/-- The normalization `symbol.strip().upper()` used by `Element.__init__`
and `Element.getBySymbol` to key the symbol registry. -/
def normalizeSymbol (s : String) : String := pyUpper (pyStrip s)

inductive PyError where
  | valueError
  | keyError
  deriving Repr, DecidableEq

/-- The symbol-indexed registry `Element._elements_by_symbol`, keyed by the
normalized symbol. -/
abbrev Registry := List (String × Element)

/-- `Element.__init__` (`molpy/element.py`, lines 26–70, restricted to the
symbol registry): build the element, normalize the symbol, and register
it; if the normalized symbol is already registered, raise `ValueError`
before inserting, so the registry is returned unchanged. -/
def registerElement (reg : Registry) (number : Nat) (nm symbol : String)
    (mass : ℚ) : Registry × Except PyError Element :=
  let e : Element := ⟨number, nm, symbol, mass⟩
  let s := normalizeSymbol symbol
  if (reg.lookup s).isSome then (reg, .error .valueError)
  else ((s, e) :: reg, .ok e)

/-- `Element.getBySymbol` (`molpy/element.py`, lines 72–76): look up the
registry under the normalized symbol; a missing key is a `KeyError`. -/
def getBySymbol (reg : Registry) (symbol : String) : Except PyError Element :=
  match reg.lookup (normalizeSymbol symbol) with
  | some e => .ok e
  | none => .error .keyError

/-- The Python values an `Element` may be compared against: another
element, a string, or a value of some other type. -/
inductive PyVal where
  | elem (e : Element)
  | str (s : String)
  | int (n : Int)
  | noneV
  deriving Repr, DecidableEq

/-- `Element.__eq__` (`molpy/element.py`, lines 144–148): `some` of the
boolean comparison when the other value is an `Element` (same symbol
string) or a `str` (symbol equals the string); implicitly `None` for every
other type. -/
def elemEq (e : Element) (x : PyVal) : Option Bool :=
  match x with
  | .elem e2 => some (e.symbol == e2.symbol)
  | .str s => some (e.symbol == s)
  | .int _ => none
  | .noneV => none

/-- **C9**: `e == x` is `True` exactly when `x` is an `Element` with the
same symbol string or a string equal character-for-character to `e`'s
symbol; for other types the comparison is the falsy non-boolean `None`. -/
theorem C9_element_eq (e : Element) :
    (∀ x : PyVal, elemEq e x = some true
      ↔ ((∃ e2 : Element, x = .elem e2 ∧ e2.symbol = e.symbol)
        ∨ x = .str e.symbol))
    ∧ (∀ s : String, elemEq e (.str s) = some (e.symbol == s))
    ∧ (∀ n : Int, elemEq e (.int n) = none)
    ∧ elemEq e .noneV = none := by
  refine ⟨?_, fun s => rfl, fun n => rfl, rfl⟩
  intro x
  cases x with
  | elem e2 =>
    simp only [elemEq, Option.some.injEq, beq_iff_eq, PyVal.elem.injEq]
    constructor
    · intro h
      exact Or.inl ⟨e2, rfl, h.symm⟩
    · rintro (⟨e3, he3, hs⟩ | h)
      · cases he3
        exact hs.symm
      · cases h
  | str s =>
    simp only [elemEq, Option.some.injEq, beq_iff_eq, PyVal.str.injEq]
    constructor
    · intro h
      exact Or.inr h.symm
    · rintro (⟨e3, he3, -⟩ | h)
      · cases he3
      · exact h.symm
  | int n => simp [elemEq]
  | noneV => simp [elemEq]

/-- **C10**: constructing an `Element` whose normalized symbol collides
with a registered one raises `ValueError` and leaves the registry
unchanged; `getBySymbol` is case-insensitive (it depends only on the
normalized symbol), and after a fresh registration any casing of the
symbol resolves to the originally registered element. -/
theorem C10_registry (reg : Registry) (number : Nat) (nm symbol : String)
    (mass : ℚ)
    (hdup : (reg.lookup (normalizeSymbol symbol)).isSome = true) :
    (registerElement reg number nm symbol mass).1 = reg
    ∧ (registerElement reg number nm symbol mass).2
        = Except.error PyError.valueError
    ∧ (∀ (r : Registry) (s₁ s₂ : String),
        normalizeSymbol s₁ = normalizeSymbol s₂ →
        getBySymbol r s₁ = getBySymbol r s₂)
    ∧ (∀ (r : Registry) (num2 : Nat) (nm2 sym2 : String) (m2 : ℚ),
        (r.lookup (normalizeSymbol sym2)).isSome = false →
        ∀ s', normalizeSymbol s' = normalizeSymbol sym2 →
          getBySymbol (registerElement r num2 nm2 sym2 m2).1 s'
            = Except.ok ⟨num2, nm2, sym2, m2⟩) := by
  refine ⟨?_, ?_, ?_, ?_⟩
  · unfold registerElement
    rw [if_pos hdup]
  · unfold registerElement
    rw [if_pos hdup]
  · intro r s₁ s₂ h
    unfold getBySymbol
    rw [h]
  · intro r num2 nm2 sym2 m2 hfresh s' hs'
    unfold registerElement
    rw [if_neg (by rw [hfresh]; exact Bool.false_ne_true)]
    unfold getBySymbol
    rw [hs']
    show (match List.lookup (normalizeSymbol sym2)
        ((normalizeSymbol sym2, (⟨num2, nm2, sym2, m2⟩ : Element)) :: r) with
      | some e => Except.ok e
      | none => Except.error PyError.keyError) = _
    rw [List.lookup_cons_self]

/-- Witness for C10: registering deuterium under the colliding symbol
`"h"` (normalizing to the registered `"H"`) fails and leaves the registry
unchanged. -/
theorem C10_registry_witness :
    (registerElement [("H", ⟨1, "hydrogen", "H", 1⟩)] 1 "deuterium" "h" 2).1
      = [("H", ⟨1, "hydrogen", "H", 1⟩)] :=
  (C10_registry [("H", ⟨1, "hydrogen", "H", 1⟩)] 1 "deuterium" "h" 2
    (by decide)).1

end Molpy
